import Mathlib

/-!
Verification of the orbital_match server's core algorithms: the wildcard
match resolver (`checkForMatches` in src/index.ts), settle detection, the
ball-id counter, persistence round-tripping, and the matchmaking/assignment
subsystem.  Machine floats are idealised as rationals; JS `Math.hypot`
comparisons against a bound are expressed by comparing squared distances.
-/

set_option maxHeartbeats 1000000

namespace OrbitalMatch

/-- Ball colors of the wildcard deployment (`ColorName` in src/index.ts). -/
inductive Color where
  | blue
  | green
  | orange
  | rainbow
  | skull
deriving DecidableEq, Repr

/-- A ball as seen by the match resolver: identity, position and color
(src/index.ts packs these into the body label `ball-<color>-<id>-<player>`).
Positions are JS doubles in the source; they are idealised here as exact
integer coordinates (the resolver's logic is independent of the numeric
type, and every distance comparison below is exact). -/
structure Ball where
  id : Nat
  x : ℤ
  y : ℤ
  color : Color
deriving DecidableEq, Repr

/-- src/index.ts: `const BALL_RADIUS = 20`. -/
def BALL_RADIUS : ℤ := 20

/-- src/index.ts: `const BALL_DIAMETER = BALL_RADIUS * 2`. -/
def BALL_DIAMETER : ℤ := BALL_RADIUS * 2

/-- src/index.ts `checkForMatches`: `const POP_DISTANCE = BALL_DIAMETER + 2`. -/
def POP_DISTANCE : ℤ := BALL_DIAMETER + 2

/-- src/index.ts `checkForMatches`:
`isClose(b1, b2) = Math.hypot(dx, dy) <= POP_DISTANCE`, stated on squares. -/
def isClose (b1 b2 : Ball) : Bool :=
  decide ((b1.x - b2.x) * (b1.x - b2.x) + (b1.y - b2.y) * (b1.y - b2.y)
    ≤ POP_DISTANCE * POP_DISTANCE)

/-- One neighbor considered by the inner `for (const neighbor of balls)` loop of
the flood fill: skipped when already visited, enqueued (and marked visited)
when close to `current` and accepted by the phase's color rule.  The
accumulator is the pair (visited set, queue). -/
def scanStep (accept : Ball → Bool) (current : Ball)
    (acc : List Ball × List Ball) (n : Ball) : List Ball × List Ball :=
  if n ∈ acc.1 then acc
  else if isClose current n && accept n then (n :: acc.1, acc.2 ++ [n]) else acc

/-- The full neighbor scan of one dequeued ball. -/
def scanNeighbors (balls : List Ball) (accept : Ball → Bool) (current : Ball)
    (vis q : List Ball) : List Ball × List Ball :=
  balls.foldl (scanStep accept current) (vis, q)

/-- The `while (head < q.length)` breadth-first loop of `checkForMatches`:
dequeue `current`, append it to the group, scan all balls for new neighbors.
`fuel` bounds the number of dequeues; every enqueued ball is simultaneously
marked visited, so `balls.length + 1` dequeues always suffice. -/
def floodStep (balls : List Ball) (accept : Ball → Bool) :
    Nat → List Ball → List Ball → List Ball → List Ball × List Ball
  | 0, vis, group, _ => (group, vis)
  | _ + 1, vis, group, [] => (group, vis)
  | fuel + 1, vis, group, current :: rest =>
    let s := scanNeighbors balls accept current vis rest
    floodStep balls accept fuel s.1 (group ++ [current]) s.2

/-- One phase of `checkForMatches`: iterate over the registry-ordered ball
list, skip visited balls, seed a flood fill at each ball passing `seedOk`,
and record the resulting group when its size is at least 3.  The visited set
is shared across seeds (and, via `computeGroups`, across the two phases). -/
def runPhase (balls : List Ball) (seedOk : Ball → Bool) (accept : Ball → Ball → Bool) :
    List Ball → List Ball → List (List Ball) → List (List Ball) × List Ball
  | [], vis, groups => (groups, vis)
  | b :: rest, vis, groups =>
    if b ∈ vis then runPhase balls seedOk accept rest vis groups
    else if seedOk b then
      let r := floodStep balls (accept b) (balls.length + 1) (b :: vis) [] [b]
      if 3 ≤ r.1.length then runPhase balls seedOk accept rest r.2 (groups ++ [r.1])
      else runPhase balls seedOk accept rest r.2 groups
    else runPhase balls seedOk accept rest vis groups

/-- Phase A seeds: every ball whose color is neither skull nor rainbow. -/
def seedOkA (b : Ball) : Bool :=
  !(decide (b.color = Color.skull) || decide (b.color = Color.rainbow))

/-- Phase A absorption: the seed's color, or rainbow (wildcard). -/
def acceptA (seed n : Ball) : Bool :=
  decide (n.color = seed.color) || decide (n.color = Color.rainbow)

/-- Phase B seeds: remaining rainbow balls. -/
def seedOkB (b : Ball) : Bool := decide (b.color = Color.rainbow)

/-- Phase B absorption: rainbow only. -/
def acceptB (_ n : Ball) : Bool := decide (n.color = Color.rainbow)

/-- The two-phase group computation of `checkForMatches` (src/index.ts
lines 394-461): Phase A over standard colors with rainbow absorption, then
Phase B over the remaining rainbows, sharing `visited` and `groupsToRemove`.
Returns (groups, final visited set). -/
def computeGroups (balls : List Ball) : List (List Ball) × List Ball :=
  let a := runPhase balls seedOkA acceptA balls [] []
  runPhase balls seedOkB acceptB balls a.2 a.1

/-- The `matchColor` computed for a group: the code overwrites it with the
color of each non-rainbow member in turn, so the last non-rainbow member
wins; `none` when the group is pure rainbow. -/
def groupMatchColor (group : List Ball) : Option Color :=
  group.foldl (fun acc b => if b.color = Color.rainbow then acc else some b.color) none

/-- `allBallsToRemove.add(b)`: JS `Set` insertion, modelled on lists. -/
def addUnique (acc : List Ball) (b : Ball) : List Ball :=
  if b ∈ acc then acc else acc ++ [b]

/-- Add every member of `l` that satisfies `p` to the removal set. -/
def addAll (acc : List Ball) (l : List Ball) (p : Ball → Bool) : List Ball :=
  l.foldl (fun a b => if p b then addUnique a b else a) acc

/-- src/index.ts lines 501-508: every rainbow ball of a matched group removes
every skull ball within `POP_DISTANCE` of it. -/
def addSkullsNear (balls : List Ball) (acc : List Ball) (rs : List Ball) : List Ball :=
  rs.foldl
    (fun a r => addAll a balls (fun o => decide (o.color = Color.skull) && isClose r o)) acc

/-- Wildcard expansion for one removal group (src/index.ts lines 466-510):
add the group itself; when it contains a rainbow, expand to all balls of the
matched color (color bomb) or, for a pure-rainbow group, to all non-skull
balls (full clear); finally each rainbow member clears adjacent skulls. -/
def expandGroup (balls : List Ball) (acc : List Ball) (group : List Ball) : List Ball :=
  let acc1 := addAll acc group (fun _ => true)
  if group.any (fun b => decide (b.color = Color.rainbow)) then
    let acc2 :=
      match groupMatchColor group with
      | some c => addAll acc1 balls (fun b => decide (b.color = c))
      | none => addAll acc1 balls (fun b => !decide (b.color = Color.skull))
    addSkullsNear balls acc2 (group.filter (fun b => decide (b.color = Color.rainbow)))
  else acc1

/-- The full removal set of one resolution pass: the union of the computed
groups and their wildcard expansions, in insertion order. -/
def matchRemovalSet (balls : List Ball) : List Ball :=
  (computeGroups balls).1.foldl (expandGroup balls) []

/-- `checkForMatches` (src/index.ts lines 389-536) as the set of balls it
removes from the world: a no-op on fewer than 3 balls. -/
def checkForMatches (balls : List Ball) : List Ball :=
  if balls.length < 3 then [] else matchRemovalSet balls

/-! ### Settle detection (src/index.ts lines 585-604, OrbitalMatchRoom lines 156-172) -/

/-- The kinematic data the settle detector reads off one ball each frame. -/
structure BallMotion where
  isSleeping : Bool
  vx : ℚ
  vy : ℚ
deriving DecidableEq, Repr

/-- `const SPEED_EPS = 0.15`, idealised as the exact rational 3/20. -/
def SPEED_EPS : ℚ := 3 / 20

/-- `b.isSleeping || Math.hypot(b.velocity.x, b.velocity.y) < SPEED_EPS`,
with the hypot comparison stated on squares. -/
def ballStill (b : BallMotion) : Bool :=
  b.isSleeping || decide (b.vx * b.vx + b.vy * b.vy < SPEED_EPS * SPEED_EPS)

/-- `const REQUIRED_SETTLE_FRAMES = 8`. -/
def REQUIRED_SETTLE_FRAMES : Nat := 8

/-- One `afterUpdate` callback: on an empty board it returns early (counter
untouched); otherwise the counter increments when every ball is still —
resetting to 0 with a fire once it reaches 8 — and resets to 0 otherwise.
Returns (new counter, whether match resolution fired). -/
def settleStep (c : Nat) (frame : List BallMotion) : Nat × Bool :=
  if frame.isEmpty then (c, false)
  else if frame.all ballStill then
    if REQUIRED_SETTLE_FRAMES ≤ c + 1 then (0, true) else (c + 1, false)
  else (0, false)

/-- Run the settle detector over a sequence of post-physics frames,
returning (final counter, number of fires). -/
def runSettle (c : Nat) : List (List BallMotion) → Nat × Nat
  | [] => (c, 0)
  | f :: fs =>
    let s := settleStep c f
    let r := runSettle s.1 fs
    (r.1, (if s.2 then 1 else 0) + r.2)

/-! ### Ball-id allocation (src/index.ts dropBall/resetGame handlers) -/

/-- The room commands that touch `ballIdCounter` or the set of live balls:
`dropBall` (allocates `++ballIdCounter`), `resetGame` (removes all balls,
zeroes the counter), and match removal of some ball ids. -/
inductive RoomEvent where
  | dropBall
  | resetGame
  | removeBalls (ids : List Nat)
deriving DecidableEq, Repr

/-- The id-relevant fragment of a room's state.  `liveIds` are the ids of
balls currently in the world; `everIds` is ghost history recording every id
ever allocated in the room, used to state the C5 invariant. -/
structure RoomCounters where
  ballIdCounter : Nat
  liveIds : List Nat
  everIds : List Nat
deriving DecidableEq, Repr

/-- src/index.ts lines 689-736 (`dropBall`: `const ballId = ++roomState.ballIdCounter`),
lines 719-736 (`resetGame`), and `World.remove` on match resolution. -/
def applyRoomEvent (s : RoomCounters) : RoomEvent → RoomCounters
  | RoomEvent.dropBall =>
    { ballIdCounter := s.ballIdCounter + 1,
      liveIds := (s.ballIdCounter + 1) :: s.liveIds,
      everIds := (s.ballIdCounter + 1) :: s.everIds }
  | RoomEvent.resetGame => { ballIdCounter := 0, liveIds := [], everIds := s.everIds }
  | RoomEvent.removeBalls ids =>
    { s with liveIds := s.liveIds.filter (fun i => !ids.contains i) }

/-- A freshly created room: counter 0, no balls. -/
def initialRoomCounters : RoomCounters := ⟨0, [], []⟩

/-- The room state reached by a sequence of commands from a fresh room. -/
def runRoom (evs : List RoomEvent) : RoomCounters :=
  evs.foldl applyRoomEvent initialRoomCounters

/-! ### Persistence (src/index.ts saveRoomState / loadRoomState / createRoom) -/

/-- One serialized ball of `SerializableGameState` (src/index.ts lines 106-121). -/
structure PersistedBall where
  id : Nat
  x : ℚ
  y : ℚ
  color : Color
  playerId : Option String
  velocityX : ℚ
  velocityY : ℚ
  angle : ℚ
  angularVelocity : ℚ
deriving DecidableEq, Repr

/-- `SerializableGameState`: the `game_state` JSON persisted per room. -/
structure RoomSnapshot where
  balls : List PersistedBall
  score : Nat
  nextBallColor : Color
  ballIdCounter : Nat
deriving DecidableEq, Repr

/-- Modelled from the spec: the durable keyed store (the external postgres
`game_rooms` table, not part of this repository) upserts `game_state` keyed
by the unique `room_name` and selects by that key; modelled as an
association list.  `saveRoomState` is the upsert of src/index.ts lines 149-164. -/
def saveRoomState (store : List (String × RoomSnapshot)) (roomName : String)
    (snap : RoomSnapshot) : List (String × RoomSnapshot) :=
  (roomName, snap) :: store.filter (fun e => !decide (e.1 = roomName))

/-- Modelled from the spec: `loadRoomState` (src/index.ts lines 172-194)
selects the row with the given unique room name, returning its snapshot. -/
def loadRoomState (store : List (String × RoomSnapshot)) (roomName : String) :
    Option RoomSnapshot :=
  (store.find? (fun e => decide (e.1 = roomName))).map (fun e => e.2)

/-- A physics body as configured by the restore path: position from
`Bodies.circle`, identity from the label, kinematics from `Body.setVelocity`,
`Body.setAngle`, `Body.setAngularVelocity`. -/
structure PhysicsBody where
  x : ℚ
  y : ℚ
  velocityX : ℚ
  velocityY : ℚ
  angle : ℚ
  angularVelocity : ℚ
  color : Color
  ballId : Nat
  playerId : String
deriving DecidableEq, Repr

/-- The body built for one saved ball by `createRoom` (src/index.ts lines
567-583): spawned at the saved position with label
`ball-<color>-<id>-<playerId || 'unknown'>`, then velocity, angle and
angular velocity are set from the snapshot. -/
def restoreBody (bd : PersistedBall) : PhysicsBody :=
  { x := bd.x, y := bd.y,
    velocityX := bd.velocityX, velocityY := bd.velocityY,
    angle := bd.angle, angularVelocity := bd.angularVelocity,
    color := bd.color, ballId := bd.id,
    playerId := bd.playerId.getD "unknown" }

/-- The serialization of one live body performed by `saveRoomState`
(src/index.ts lines 131-143): id and color parsed back out of the label,
position, velocity, angle and angular velocity read off the body. -/
def serializeBody (b : PhysicsBody) : PersistedBall :=
  { id := b.ballId, x := b.x, y := b.y, color := b.color,
    playerId := some b.playerId,
    velocityX := b.velocityX, velocityY := b.velocityY,
    angle := b.angle, angularVelocity := b.angularVelocity }

/-- The observable fields C6 compares: id, position, color, and the three
kinematic fields (`playerId` is not part of the claimed observation). -/
def ballObservables (b : PersistedBall) : Nat × ℚ × ℚ × Color × ℚ × ℚ × ℚ × ℚ :=
  (b.id, b.x, b.y, b.color, b.velocityX, b.velocityY, b.angle, b.angularVelocity)

/-! ### Room assignments (src/index.ts assignUserToRoom, lines 296-341) -/

/-- One row of the durable `room_assignments` table (timestamps omitted). -/
structure AssignmentRow where
  userId : String
  roomName : String
  playerName : String
  isActive : Bool
deriving DecidableEq, Repr

/-- Number of active assignment rows for a user. -/
def countActive (u : String) (rows : List AssignmentRow) : Nat :=
  (rows.filter (fun r => decide (r.userId = u) && r.isActive)).length

/-- The refresh branch of `assignUserToRoom`: the `select ... limit 1`
followed by `update ... where id = <that row>` refreshes the first active
row of this user in this room (playerName and lastSeen only). -/
def refreshFirst (u room name : String) : List AssignmentRow → List AssignmentRow
  | [] => []
  | r :: rs =>
    if r.userId = u ∧ r.roomName = room ∧ r.isActive = true then
      { r with playerName := name } :: rs
    else r :: refreshFirst u room name rs

/-- `assignUserToRoom` (src/index.ts lines 296-341): if the user is already
active in the target room, refresh that row; otherwise deactivate every
assignment row of the user and insert a fresh active row. -/
def assignUserToRoom (u room name : String) (rows : List AssignmentRow) :
    List AssignmentRow :=
  if rows.any (fun r => decide (r.userId = u) && decide (r.roomName = room) && r.isActive) then
    refreshFirst u room name rows
  else
    (rows.map (fun r => if r.userId = u then { r with isActive := false } else r))
      ++ [⟨u, room, name, true⟩]

/-! ### Per-user coalescing (src/index.ts pendingAssignments, lines 89-90, 197-294)

The hosting runtime executes each callback to completion, so the stretch of
`findOrCreateRoomForUser` from the `pendingAssignments.has(userId)` check to
`pendingAssignments.set(userId, op)` runs without interleaving.  A call
arriving while an op for the same user is in flight therefore attaches to
the existing promise; the op's completion delivers one room name to every
waiter, performs the single `assignUserToRoom`, and the `finally` clears the
map entry.  Events for one `userId` key (the map is keyed per user): -/
inductive CoalesceEvent where
  | arrive (cid : Nat)
  | complete (room : String)
deriving DecidableEq, Repr

/-- State of one user's coalescing key: whether `pendingAssignments` holds an
entry, how many underlying ops have been started, which callers await the
current op, the (caller, op index, room) results delivered so far, and the
durable assignment rows for this user. -/
structure CoalesceState where
  hasPending : Bool
  opsStarted : Nat
  waiting : List Nat
  results : List (Nat × Nat × String)
  rows : List AssignmentRow
deriving DecidableEq, Repr

/-- Initial state: no pending op, no rows for a fresh user. -/
def initCoalesce : CoalesceState := ⟨false, 0, [], [], []⟩

/-- One atomic event-loop step.  `arrive`: the synchronous prefix of a call —
either attach to the in-flight op or start a new one (has/set).  `complete`:
the op resolves with a room name, all waiters observe it, the one
`assignUserToRoom` runs, and `finally` deletes the map entry. -/
def coalesceStep (u name : String) (s : CoalesceState) : CoalesceEvent → CoalesceState
  | CoalesceEvent.arrive cid =>
    if s.hasPending then { s with waiting := s.waiting ++ [cid] }
    else { s with hasPending := true, opsStarted := s.opsStarted + 1, waiting := [cid] }
  | CoalesceEvent.complete room =>
    if s.hasPending then
      { s with hasPending := false,
               waiting := [],
               results := s.results ++ s.waiting.map (fun c => (c, s.opsStarted, room)),
               rows := assignUserToRoom u room name s.rows }
    else s

/-- Run a trace of events for one user's key. -/
def coalesceRun (u name : String) (evs : List CoalesceEvent) : CoalesceState :=
  evs.foldl (coalesceStep u name) initCoalesce

/-! ### Matchmaking failure policy (src/index.ts findOrCreateRoomForUser) -/

/-- A durable-store failure (caught and logged, never analysed further). -/
inductive DbErr where
  | err
deriving DecidableEq, Repr

/-- The outcomes of the durable-store operations one `findOrCreateRoomForUser`
invocation performs, each of which may fail: the active-assignment lookup,
the lastSeen refresh, the active-rooms scan, the new-room insert, and the
two `assignUserToRoom` calls (whose internal try/catch swallows failures). -/
structure MatchmakingDb where
  selAssignment : Except DbErr (Option String)
  updRefresh : Except DbErr Unit
  selRooms : Except DbErr (List String)
  insRoom : Except DbErr Unit
  assignAvail : Except DbErr Unit
  assignNew : Except DbErr Unit

/-- The body of the `op` async closure (src/index.ts lines 208-286) without
its catch-all: return the existing assignment's room after refreshing it,
else the first active room with live in-memory space, else a newly created
room.  Errors of `assignUserToRoom` are swallowed by its own try/catch and
do not affect the result. -/
def runAssignmentOp (o : MatchmakingDb) (hasSpace : String → Bool)
    (newName : String) : Except DbErr String := do
  let existing ← o.selAssignment
  match existing with
  | some room => do
    let _ ← o.updRefresh
    pure room
  | none => do
    let avail ← o.selRooms
    match avail.find? hasSpace with
    | some room =>
      match o.assignAvail with
      | Except.ok _ => pure room
      | Except.error _ => pure room
    | none => do
      let _ ← o.insRoom
      match o.assignNew with
      | Except.ok _ => pure newName
      | Except.error _ => pure newName

/-- `findOrCreateRoomForUser` (src/index.ts lines 197-294) as seen by its
caller: without a configured store it returns a locally generated name
(`room-<now>`); otherwise it runs the op, and the catch of lines 281-285
turns any escaped durable-store error into the locally generated
`fallback-room-<now>` name.  It always returns a name and never throws. -/
def findOrCreateRoomForUser (db : Option MatchmakingDb) (hasSpace : String → Bool)
    (newName fallbackName localName : String) : String :=
  match db with
  | none => localName
  | some o =>
    match runAssignmentOp o hasSpace newName with
    | Except.ok r => r
    | Except.error _ => fallbackName

/-! ### Auxiliary predicates and concrete instances -/

/-- Pairwise disjointness of removal groups: no ball is in two groups. -/
def DisjointGroups (groups : List (List Ball)) : Prop :=
  groups.Pairwise (fun g h => ∀ x ∈ g, x ∉ h)

/-- The id invariant of a room: every live ball id is bounded by the counter
and live ids are pairwise distinct. -/
def RoomInv (s : RoomCounters) : Prop :=
  (∀ i ∈ s.liveIds, i ≤ s.ballIdCounter) ∧ s.liveIds.Nodup

/-- N concurrent arrivals for one user followed by the completion of the
in-flight op: the shape of a maximally concurrent trace. -/
def concurrentTrace (room : String) (cids : List Nat) : List CoalesceEvent :=
  cids.map CoalesceEvent.arrive ++ [CoalesceEvent.complete room]

/-- Counterexample board for C1: two blue balls and a rainbow in a touching
row, plus an isolated blue ball far away. -/
def cexBlue1 : Ball := ⟨1, 0, 0, Color.blue⟩

def cexBlue2 : Ball := ⟨2, 42, 0, Color.blue⟩

def cexRainbow : Ball := ⟨3, 84, 0, Color.rainbow⟩

def cexIsolated : Ball := ⟨4, 300, 300, Color.blue⟩

def cexBalls : List Ball := [cexBlue1, cexBlue2, cexRainbow, cexIsolated]

/-- Witness board for C2/C10: three touching rainbow balls and a skull
adjacent to the first. -/
def wRainbow1 : Ball := ⟨1, 0, 0, Color.rainbow⟩

def wRainbow2 : Ball := ⟨2, 42, 0, Color.rainbow⟩

def wRainbow3 : Ball := ⟨3, 84, 0, Color.rainbow⟩

def wSkull : Ball := ⟨4, 0, 42, Color.skull⟩

def wBalls : List Ball := [wRainbow1, wRainbow2, wRainbow3, wSkull]

def wRainbowGroup : List Ball := [wRainbow1, wRainbow2, wRainbow3]

/-- Witness board for C1: three touching blue balls. -/
def wBlueBalls : List Ball :=
  [⟨1, 0, 0, Color.blue⟩, ⟨2, 42, 0, Color.blue⟩, ⟨3, 84, 0, Color.blue⟩]

/-- A one-ball frame that is still (asleep). -/
def stillFrame : List BallMotion := [⟨true, 0, 0⟩]

/-- Demo data for the persistence round trip. -/
def demoBall : PersistedBall := ⟨1, 10, 20, Color.blue, some "p1", 0, 1, 0, 0⟩

def demoSnapshot : RoomSnapshot := ⟨[demoBall], 30, Color.green, 5⟩

/-- Demo row for the assignment-invariant witness. -/
def demoRow : AssignmentRow := ⟨"u1", "room-a", "alice", true⟩

/-- Counterexample oracle for C9: every operation succeeds except the
`assignUserToRoom` performed for the available room, whose failure is
swallowed by that function's own try/catch. -/
def cexDb : MatchmakingDb :=
  { selAssignment := Except.ok none, updRefresh := Except.ok (),
    selRooms := Except.ok ["roomA"], insRoom := Except.ok (),
    assignAvail := Except.error DbErr.err, assignNew := Except.ok () }

/-! ## Lemmas about the flood fill -/

theorem scanStep_vis_sub {accept : Ball → Bool} {current : Ball}
    {acc : List Ball × List Ball} {n x : Ball} (h : x ∈ acc.1) :
    x ∈ (scanStep accept current acc n).1 := by
  unfold scanStep
  split
  · exact h
  · split
    · exact List.mem_cons_of_mem _ h
    · exact h

theorem scanStep_q_cases {accept : Ball → Bool} {current : Ball}
    {acc : List Ball × List Ball} {n x : Ball}
    (h : x ∈ (scanStep accept current acc n).2) :
    x ∈ acc.2 ∨ (x = n ∧ x ∉ acc.1 ∧ (isClose current x && accept x) = true) := by
  unfold scanStep at h
  split at h
  · exact Or.inl h
  · rename_i hnin
    split at h
    · rename_i hcl
      rcases List.mem_append.1 h with h1 | h2
      · exact Or.inl h1
      · have hx : x = n := by simpa using h2
        subst hx
        exact Or.inr ⟨rfl, hnin, hcl⟩
    · exact Or.inl h

theorem scanStep_q_sub_vis {accept : Ball → Bool} {current : Ball}
    {acc : List Ball × List Ball} {n : Ball} (hinv : ∀ x ∈ acc.2, x ∈ acc.1) :
    ∀ x ∈ (scanStep accept current acc n).2, x ∈ (scanStep accept current acc n).1 := by
  unfold scanStep
  split
  · exact hinv
  · split
    · intro x hx
      rcases List.mem_append.1 hx with h1 | h2
      · exact List.mem_cons_of_mem _ (hinv x h1)
      · have hx2 : x = n := by simpa using h2
        subst hx2
        exact List.mem_cons_self _ _
    · exact hinv

theorem scanFold_vis_mono (accept : Ball → Bool) (current : Ball) (l : List Ball) :
    ∀ acc : List Ball × List Ball, ∀ x ∈ acc.1,
      x ∈ (List.foldl (scanStep accept current) acc l).1 := by
  induction l with
  | nil => intro acc x h; simpa using h
  | cons n l ih => intro acc x h; exact ih _ x (scanStep_vis_sub h)

theorem scanFold_q_cases (accept : Ball → Bool) (current : Ball) (l : List Ball) :
    ∀ acc : List Ball × List Ball, ∀ x ∈ (List.foldl (scanStep accept current) acc l).2,
      x ∈ acc.2 ∨ (x ∈ l ∧ x ∉ acc.1 ∧ (isClose current x && accept x) = true) := by
  induction l with
  | nil => intro acc x h; exact Or.inl (by simpa using h)
  | cons n l ih =>
    intro acc x h
    rcases ih (scanStep accept current acc n) x h with h1 | ⟨hl, hnin, hc⟩
    · rcases scanStep_q_cases h1 with h2 | ⟨hx, hnin, hc⟩
      · exact Or.inl h2
      · subst hx
        exact Or.inr ⟨List.mem_cons_self _ _, hnin, hc⟩
    · exact Or.inr ⟨List.mem_cons_of_mem _ hl, fun hx => hnin (scanStep_vis_sub hx), hc⟩

theorem scanFold_q_sub_vis (accept : Ball → Bool) (current : Ball) (l : List Ball) :
    ∀ acc : List Ball × List Ball, (∀ x ∈ acc.2, x ∈ acc.1) →
      ∀ x ∈ (List.foldl (scanStep accept current) acc l).2,
        x ∈ (List.foldl (scanStep accept current) acc l).1 := by
  induction l with
  | nil => intro acc h; simpa using h
  | cons n l ih => intro acc h; exact ih _ (scanStep_q_sub_vis h)

theorem scanNeighbors_vis_mono {accept : Ball → Bool} {current : Ball}
    {vis q : List Ball} {x : Ball} (h : x ∈ vis) (balls : List Ball) :
    x ∈ (scanNeighbors balls accept current vis q).1 :=
  scanFold_vis_mono accept current balls (vis, q) x h

theorem scanNeighbors_q_cases {accept : Ball → Bool} {current : Ball}
    {vis q : List Ball} {x : Ball} {balls : List Ball}
    (h : x ∈ (scanNeighbors balls accept current vis q).2) :
    x ∈ q ∨ (x ∈ balls ∧ x ∉ vis ∧ (isClose current x && accept x) = true) :=
  scanFold_q_cases accept current balls (vis, q) x h

theorem scanNeighbors_q_sub_vis {accept : Ball → Bool} {current : Ball}
    {vis q : List Ball} {balls : List Ball} (hinv : ∀ x ∈ q, x ∈ vis) :
    ∀ x ∈ (scanNeighbors balls accept current vis q).2,
      x ∈ (scanNeighbors balls accept current vis q).1 :=
  scanFold_q_sub_vis accept current balls (vis, q) hinv

theorem flood_vis_mono (balls : List Ball) (accept : Ball → Bool) :
    ∀ (fuel : Nat) (vis group q : List Ball) (x : Ball), x ∈ vis →
      x ∈ (floodStep balls accept fuel vis group q).2 := by
  intro fuel
  induction fuel with
  | zero => intro vis group q x h; simpa [floodStep] using h
  | succ fuel ih =>
    intro vis group q x h
    cases q with
    | nil => simpa [floodStep] using h
    | cons current rest =>
      simp only [floodStep]
      exact ih _ _ _ x (scanNeighbors_vis_mono h balls)

theorem flood_group_cases (balls : List Ball) (accept : Ball → Bool) :
    ∀ (fuel : Nat) (vis group q : List Ball) (x : Ball),
      x ∈ (floodStep balls accept fuel vis group q).1 →
      x ∈ group ∨ x ∈ q ∨ (x ∉ vis ∧ accept x = true ∧ x ∈ balls) := by
  intro fuel
  induction fuel with
  | zero => intro vis group q x h; exact Or.inl (by simpa [floodStep] using h)
  | succ fuel ih =>
    intro vis group q x h
    cases q with
    | nil => exact Or.inl (by simpa [floodStep] using h)
    | cons current rest =>
      simp only [floodStep] at h
      rcases ih _ _ _ x h with h1 | h2 | ⟨hnv, ha, hb⟩
      · rcases List.mem_append.1 h1 with hg | hc
        · exact Or.inl hg
        · have hx : x = current := by simpa using hc
          subst hx
          exact Or.inr (Or.inl (List.mem_cons_self _ _))
      · rcases scanNeighbors_q_cases h2 with hr | ⟨hb, hnv, hc⟩
        · exact Or.inr (Or.inl (List.mem_cons_of_mem _ hr))
        · have hc2 : isClose current x = true ∧ accept x = true := by simpa using hc
          exact Or.inr (Or.inr ⟨hnv, hc2.2, hb⟩)
      · refine Or.inr (Or.inr ⟨fun hx => hnv ?_, ha, hb⟩)
        exact scanNeighbors_vis_mono hx balls

theorem flood_group_sub_vis (balls : List Ball) (accept : Ball → Bool) :
    ∀ (fuel : Nat) (vis group q : List Ball),
      (∀ x ∈ group, x ∈ vis) → (∀ x ∈ q, x ∈ vis) →
      ∀ x ∈ (floodStep balls accept fuel vis group q).1,
        x ∈ (floodStep balls accept fuel vis group q).2 := by
  intro fuel
  induction fuel with
  | zero => intro vis group q hg hq x h; exact hg x (by simpa [floodStep] using h)
  | succ fuel ih =>
    intro vis group q hg hq x h
    cases q with
    | nil =>
      simp only [floodStep] at h ⊢
      exact hg x h
    | cons current rest =>
      simp only [floodStep] at h ⊢
      refine ih _ _ _ ?_ ?_ x h
      · intro y hy
        rcases List.mem_append.1 hy with h1 | h2
        · exact scanNeighbors_vis_mono (hg y h1) balls
        · have hyc : y = current := by simpa using h2
          subst hyc
          exact scanNeighbors_vis_mono (hq y (List.mem_cons_self _ _)) balls
      · exact scanNeighbors_q_sub_vis fun y hy => hq y (List.mem_cons_of_mem _ hy)

/-! ## Lemmas about the two phases -/

theorem runPhase_vis_mono (balls : List Ball) (seedOk : Ball → Bool)
    (accept : Ball → Ball → Bool) :
    ∀ (pending vis : List Ball) (groups : List (List Ball)) (x : Ball), x ∈ vis →
      x ∈ (runPhase balls seedOk accept pending vis groups).2 := by
  intro pending
  induction pending with
  | nil => intro vis groups x h; simpa [runPhase] using h
  | cons b rest ih =>
    intro vis groups x h
    simp only [runPhase]
    split
    · exact ih _ _ x h
    · split
      · split
        · exact ih _ _ x (flood_vis_mono _ _ _ _ _ _ x (List.mem_cons_of_mem _ h))
        · exact ih _ _ x (flood_vis_mono _ _ _ _ _ _ x (List.mem_cons_of_mem _ h))
      · exact ih _ _ x h

theorem runPhase_min3 (balls : List Ball) (seedOk : Ball → Bool)
    (accept : Ball → Ball → Bool) :
    ∀ (pending vis : List Ball) (groups : List (List Ball)),
      (∀ g ∈ groups, 3 ≤ g.length) →
      ∀ g ∈ (runPhase balls seedOk accept pending vis groups).1, 3 ≤ g.length := by
  intro pending
  induction pending with
  | nil => intro vis groups h g hg; exact h g (by simpa [runPhase] using hg)
  | cons b rest ih =>
    intro vis groups h g hg
    simp only [runPhase] at hg
    split at hg
    · exact ih _ _ h g hg
    · split at hg
      · split at hg
        · rename_i h3
          refine ih _ _ ?_ g hg
          intro g2 hg2
          rcases List.mem_append.1 hg2 with h1 | h2
          · exact h g2 h1
          · have hg2e : g2 = (floodStep balls (accept b) (balls.length + 1) (b :: vis) [] [b]).1 := by
              simpa using h2
            rw [hg2e]
            exact h3
        · exact ih _ _ h g hg
      · exact ih _ _ h g hg

theorem runPhase_sound (balls : List Ball) (seedOk : Ball → Bool)
    (accept : Ball → Ball → Bool) (P : Ball → Prop)
    (hseed : ∀ b, seedOk b = true → P b)
    (hacc : ∀ b x, seedOk b = true → accept b x = true → P x) :
    ∀ (pending vis : List Ball) (groups : List (List Ball)),
      (∀ g ∈ groups, ∀ x ∈ g, P x) →
      ∀ g ∈ (runPhase balls seedOk accept pending vis groups).1, ∀ x ∈ g, P x := by
  intro pending
  induction pending with
  | nil => intro vis groups h g hg; exact h g (by simpa [runPhase] using hg)
  | cons b rest ih =>
    intro vis groups h g hg
    simp only [runPhase] at hg
    split at hg
    · exact ih _ _ h g hg
    · split at hg
      · rename_i hbv hseedb
        split at hg
        · refine ih _ _ ?_ g hg
          intro g2 hg2 x hx
          rcases List.mem_append.1 hg2 with h1 | h2
          · exact h g2 h1 x hx
          · have hg2e : g2 = (floodStep balls (accept b) (balls.length + 1) (b :: vis) [] [b]).1 := by
              simpa using h2
            rw [hg2e] at hx
            rcases flood_group_cases balls (accept b) _ _ _ _ x hx with h0 | hb1 | ⟨_, ha, _⟩
            · simp at h0
            · have hxb : x = b := by simpa using hb1
              rw [hxb]
              exact hseed b hseedb
            · exact hacc b x hseedb ha
        · exact ih _ _ h g hg
      · exact ih _ _ h g hg

theorem runPhase_groupsOk (balls : List Ball) (seedOk : Ball → Bool)
    (accept : Ball → Ball → Bool) :
    ∀ (pending vis : List Ball) (groups : List (List Ball)),
      (∀ g ∈ groups, ∀ x ∈ g, x ∈ vis) → DisjointGroups groups →
      (∀ g ∈ (runPhase balls seedOk accept pending vis groups).1, ∀ x ∈ g,
          x ∈ (runPhase balls seedOk accept pending vis groups).2) ∧
        DisjointGroups (runPhase balls seedOk accept pending vis groups).1 := by
  intro pending
  induction pending with
  | nil =>
    intro vis groups hsub hdisj
    constructor
    · intro g hg x hx
      simp only [runPhase] at hg ⊢
      exact hsub g hg x hx
    · simpa [runPhase] using hdisj
  | cons b rest ih =>
    intro vis groups hsub hdisj
    simp only [runPhase]
    split
    · exact ih _ _ hsub hdisj
    · split
      · rename_i hbv hseedb
        split
        · refine ih _ _ ?_ ?_
          · intro g hg x hx
            rcases List.mem_append.1 hg with h1 | h2
            · exact flood_vis_mono _ _ _ _ _ _ x
                (List.mem_cons_of_mem _ (hsub g h1 x hx))
            · have hge : g = (floodStep balls (accept b) (balls.length + 1) (b :: vis) [] [b]).1 := by
                simpa using h2
              rw [hge] at hx
              refine flood_group_sub_vis balls (accept b) _ _ _ _ ?_ ?_ x hx
              · intro y hy; simp at hy
              · intro y hy
                have hyb : y = b := by simpa using hy
                rw [hyb]
                exact List.mem_cons_self _ _
          · unfold DisjointGroups
            rw [List.pairwise_append]
            refine ⟨hdisj, by simp, ?_⟩
            intro g1 hg1 g2 hg2 x hx1
            have hg2e : g2 = (floodStep balls (accept b) (balls.length + 1) (b :: vis) [] [b]).1 := by
              simpa using hg2
            rw [hg2e]
            intro hx2
            have hxv : x ∈ vis := hsub g1 hg1 x hx1
            rcases flood_group_cases balls (accept b) _ _ _ _ x hx2 with h0 | hb1 | ⟨hnv, _, _⟩
            · simp at h0
            · have hxb : x = b := by simpa using hb1
              rw [hxb] at hxv
              exact hbv hxv
            · exact hnv (List.mem_cons_of_mem _ hxv)
        · refine ih _ _ ?_ hdisj
          intro g hg x hx
          exact flood_vis_mono _ _ _ _ _ _ x
            (List.mem_cons_of_mem _ (hsub g hg x hx))
      · exact ih _ _ hsub hdisj

theorem computeGroups_min3 (balls : List Ball) :
    ∀ g ∈ (computeGroups balls).1, 3 ≤ g.length := by
  intro g hg
  simp only [computeGroups] at hg
  refine runPhase_min3 balls seedOkB acceptB balls _ _ ?_ g hg
  exact runPhase_min3 balls seedOkA acceptA balls [] [] (by simp)

theorem computeGroups_sound (balls : List Ball) (P : Ball → Prop)
    (hseedA : ∀ b, seedOkA b = true → P b)
    (haccA : ∀ b x, seedOkA b = true → acceptA b x = true → P x)
    (hseedB : ∀ b, seedOkB b = true → P b)
    (haccB : ∀ b x, seedOkB b = true → acceptB b x = true → P x) :
    ∀ g ∈ (computeGroups balls).1, ∀ x ∈ g, P x := by
  intro g hg
  simp only [computeGroups] at hg
  refine runPhase_sound balls seedOkB acceptB P hseedB haccB balls _ _ ?_ g hg
  exact runPhase_sound balls seedOkA acceptA P hseedA haccA balls [] [] (by simp)

theorem computeGroups_no_skull (balls : List Ball) :
    ∀ g ∈ (computeGroups balls).1, ∀ x ∈ g, x.color ≠ Color.skull := by
  refine computeGroups_sound balls _ ?_ ?_ ?_ ?_
  · intro b hb
    unfold seedOkA at hb
    simp at hb
    exact hb.1
  · intro b x hb hx
    unfold seedOkA at hb
    unfold acceptA at hx
    simp at hb hx
    rcases hx with h1 | h1
    · rw [h1]; exact hb.1
    · rw [h1]; simp
  · intro b hb
    unfold seedOkB at hb
    simp at hb
    rw [hb]; simp
  · intro b x _ hx
    unfold acceptB at hx
    simp at hx
    rw [hx]; simp

theorem computeGroups_disjoint (balls : List Ball) : DisjointGroups (computeGroups balls).1 := by
  simp only [computeGroups]
  have hA := runPhase_groupsOk balls seedOkA acceptA balls [] [] (by simp)
    (by unfold DisjointGroups; simp)
  exact (runPhase_groupsOk balls seedOkB acceptB balls _ _ hA.1 hA.2).2

/-! ## Lemmas about the removal set -/

theorem mem_addUnique {acc : List Ball} {b x : Ball} :
    x ∈ addUnique acc b ↔ x ∈ acc ∨ x = b := by
  unfold addUnique
  split
  · rename_i hb
    constructor
    · exact Or.inl
    · rintro (h | rfl)
      · exact h
      · exact hb
  · simp

theorem mem_addAll_mono (p : Ball → Bool) (l : List Ball) :
    ∀ (acc : List Ball) (x : Ball), x ∈ acc → x ∈ addAll acc l p := by
  induction l with
  | nil => intro acc x h; simpa [addAll] using h
  | cons b l ih =>
    intro acc x h
    simp only [addAll, List.foldl_cons] at *
    split
    · exact ih _ x (mem_addUnique.2 (Or.inl h))
    · exact ih _ x h

theorem mem_addAll_of (p : Ball → Bool) (l : List Ball) :
    ∀ (acc : List Ball) (x : Ball), x ∈ l → p x = true → x ∈ addAll acc l p := by
  induction l with
  | nil => intro acc x h; simp at h
  | cons b l ih =>
    intro acc x hx hp
    rcases List.mem_cons.1 hx with rfl | hl
    · simp only [addAll, List.foldl_cons, hp, if_pos]
      exact mem_addAll_mono p l _ x (mem_addUnique.2 (Or.inr rfl))
    · simp only [addAll, List.foldl_cons]
      split
      · exact ih _ x hl hp
      · exact ih _ x hl hp

theorem mem_addAll_cases (p : Ball → Bool) (l : List Ball) :
    ∀ (acc : List Ball) (x : Ball), x ∈ addAll acc l p →
      x ∈ acc ∨ (x ∈ l ∧ p x = true) := by
  induction l with
  | nil => intro acc x h; exact Or.inl (by simpa [addAll] using h)
  | cons b l ih =>
    intro acc x h
    simp only [addAll, List.foldl_cons] at h
    split at h
    · rename_i hpb
      rcases ih _ x h with h1 | ⟨h2, h3⟩
      · rcases mem_addUnique.1 h1 with h4 | rfl
        · exact Or.inl h4
        · exact Or.inr ⟨List.mem_cons_self _ _, hpb⟩
      · exact Or.inr ⟨List.mem_cons_of_mem _ h2, h3⟩
    · rcases ih _ x h with h1 | ⟨h2, h3⟩
      · exact Or.inl h1
      · exact Or.inr ⟨List.mem_cons_of_mem _ h2, h3⟩

theorem mem_addSkullsNear_mono (balls : List Ball) (rs : List Ball) :
    ∀ (acc : List Ball) (x : Ball), x ∈ acc → x ∈ addSkullsNear balls acc rs := by
  induction rs with
  | nil => intro acc x h; simpa [addSkullsNear] using h
  | cons r rs ih =>
    intro acc x h
    simp only [addSkullsNear, List.foldl_cons] at *
    exact ih _ x (mem_addAll_mono _ balls _ x h)

theorem mem_addSkullsNear_of (balls : List Ball) (rs : List Ball) :
    ∀ (acc : List Ball) (r x : Ball), r ∈ rs → x ∈ balls →
      (decide (x.color = Color.skull) && isClose r x) = true →
      x ∈ addSkullsNear balls acc rs := by
  induction rs with
  | nil => intro acc r x h; simp at h
  | cons r0 rs ih =>
    intro acc r x hr hx hp
    rcases List.mem_cons.1 hr with rfl | hrs
    · simp only [addSkullsNear, List.foldl_cons]
      exact mem_addSkullsNear_mono balls rs _ x (mem_addAll_of _ balls _ x hx hp)
    · simp only [addSkullsNear, List.foldl_cons]
      exact ih _ r x hrs hx hp

theorem mem_addSkullsNear_cases (balls : List Ball) (rs : List Ball) :
    ∀ (acc : List Ball) (x : Ball), x ∈ addSkullsNear balls acc rs →
      x ∈ acc ∨ ∃ r ∈ rs, x ∈ balls ∧ x.color = Color.skull ∧ isClose r x = true := by
  induction rs with
  | nil => intro acc x h; exact Or.inl (by simpa [addSkullsNear] using h)
  | cons r rs ih =>
    intro acc x h
    simp only [addSkullsNear, List.foldl_cons] at h
    rcases ih _ x h with h1 | ⟨r2, hr2, hx2⟩
    · rcases mem_addAll_cases _ balls _ x h1 with h3 | ⟨h4, h5⟩
      · exact Or.inl h3
      · have h6 : x.color = Color.skull ∧ isClose r x = true := by simpa using h5
        exact Or.inr ⟨r, List.mem_cons_self _ _, h4, h6.1, h6.2⟩
    · exact Or.inr ⟨r2, List.mem_cons_of_mem _ hr2, hx2⟩

theorem mem_expandGroup_mono (balls : List Ball) (g : List Ball)
    (acc : List Ball) (x : Ball) (h : x ∈ acc) : x ∈ expandGroup balls acc g := by
  unfold expandGroup
  have h1 : x ∈ addAll acc g (fun _ => true) := mem_addAll_mono _ g acc x h
  split
  · split
    · exact mem_addSkullsNear_mono balls _ _ x (mem_addAll_mono _ balls _ x h1)
    · exact mem_addSkullsNear_mono balls _ _ x (mem_addAll_mono _ balls _ x h1)
  · exact h1

theorem mem_expandGroup_self (balls : List Ball) (g : List Ball)
    (acc : List Ball) (x : Ball) (h : x ∈ g) : x ∈ expandGroup balls acc g := by
  unfold expandGroup
  have h1 : x ∈ addAll acc g (fun _ => true) := mem_addAll_of _ g acc x h rfl
  split
  · split
    · exact mem_addSkullsNear_mono balls _ _ x (mem_addAll_mono _ balls _ x h1)
    · exact mem_addSkullsNear_mono balls _ _ x (mem_addAll_mono _ balls _ x h1)
  · exact h1

theorem mem_expandGroup_bomb (balls : List Ball) (g : List Ball)
    (acc : List Ball) (x : Ball) (c : Color)
    (hr : ∃ r ∈ g, r.color = Color.rainbow) (hmc : groupMatchColor g = some c)
    (hx : x ∈ balls) (hcol : x.color = c) : x ∈ expandGroup balls acc g := by
  unfold expandGroup
  rw [if_pos, hmc]
  · refine mem_addSkullsNear_mono balls _ _ x ?_
    exact mem_addAll_of _ balls _ x hx (by simp [hcol])
  · rcases hr with ⟨r, hrg, hrc⟩
    exact List.any_eq_true.2 ⟨r, hrg, by simp [hrc]⟩

theorem mem_expandGroup_clear (balls : List Ball) (g : List Ball)
    (acc : List Ball) (x : Ball)
    (hr : ∃ r ∈ g, r.color = Color.rainbow) (hmc : groupMatchColor g = none)
    (hx : x ∈ balls) (hcol : x.color ≠ Color.skull) : x ∈ expandGroup balls acc g := by
  unfold expandGroup
  rw [if_pos, hmc]
  · refine mem_addSkullsNear_mono balls _ _ x ?_
    exact mem_addAll_of _ balls _ x hx (by simp [hcol])
  · rcases hr with ⟨r, hrg, hrc⟩
    exact List.any_eq_true.2 ⟨r, hrg, by simp [hrc]⟩

theorem mem_expandGroup_skull (balls : List Ball) (g : List Ball)
    (acc : List Ball) (r x : Ball)
    (hrg : r ∈ g) (hrc : r.color = Color.rainbow)
    (hx : x ∈ balls) (hcol : x.color = Color.skull) (hcl : isClose r x = true) :
    x ∈ expandGroup balls acc g := by
  unfold expandGroup
  rw [if_pos]
  · have hrf : r ∈ g.filter (fun b => decide (b.color = Color.rainbow)) :=
      List.mem_filter.2 ⟨hrg, by simp [hrc]⟩
    split
    · exact mem_addSkullsNear_of balls _ _ r x hrf hx (by simp [hcol, hcl])
    · exact mem_addSkullsNear_of balls _ _ r x hrf hx (by simp [hcol, hcl])
  · exact List.any_eq_true.2 ⟨r, hrg, by simp [hrc]⟩

theorem mem_expandGroup_cases (balls : List Ball) (g : List Ball)
    (acc : List Ball) (x : Ball) (h : x ∈ expandGroup balls acc g) :
    x ∈ acc ∨ x ∈ g ∨
      (∃ c, groupMatchColor g = some c ∧ x ∈ balls ∧ x.color = c) ∨
      (groupMatchColor g = none ∧ x ∈ balls ∧ x.color ≠ Color.skull) ∨
      (∃ r ∈ g, r.color = Color.rainbow ∧ x ∈ balls ∧ x.color = Color.skull ∧
        isClose r x = true) := by
  unfold expandGroup at h
  have hbase : x ∈ addAll acc g (fun _ => true) → x ∈ acc ∨ x ∈ g := by
    intro hb
    rcases mem_addAll_cases _ g acc x hb with h1 | ⟨h2, _⟩
    · exact Or.inl h1
    · exact Or.inr h2
  split at h
  · rcases mem_addSkullsNear_cases balls _ _ x h with h1 | ⟨r, hr, hxb, hxc, hcl⟩
    · split at h1
      · rename_i c hmc
        rcases mem_addAll_cases _ balls _ x h1 with h2 | ⟨h3, h4⟩
        · rcases hbase h2 with h5 | h5
          · exact Or.inl h5
          · exact Or.inr (Or.inl h5)
        · exact Or.inr (Or.inr (Or.inl ⟨c, hmc, h3, by simpa using h4⟩))
      · rename_i hmc
        rcases mem_addAll_cases _ balls _ x h1 with h2 | ⟨h3, h4⟩
        · rcases hbase h2 with h5 | h5
          · exact Or.inl h5
          · exact Or.inr (Or.inl h5)
        · exact Or.inr (Or.inr (Or.inr (Or.inl ⟨hmc, h3, by simpa using h4⟩)))
    · have hr2 : r ∈ g ∧ r.color = Color.rainbow := by
        have := List.mem_filter.1 hr
        exact ⟨this.1, by simpa using this.2⟩
      exact Or.inr (Or.inr (Or.inr (Or.inr ⟨r, hr2.1, hr2.2, hxb, hxc, hcl⟩)))
  · rcases hbase h with h1 | h1
    · exact Or.inl h1
    · exact Or.inr (Or.inl h1)

theorem mem_foldl_expand_mono (balls : List Ball) (gs : List (List Ball)) :
    ∀ (acc : List Ball) (x : Ball), x ∈ acc →
      x ∈ List.foldl (expandGroup balls) acc gs := by
  induction gs with
  | nil => intro acc x h; simpa using h
  | cons g gs ih =>
    intro acc x h
    exact ih _ x (mem_expandGroup_mono balls g acc x h)

theorem mem_foldl_expand_of (balls : List Ball) (gs : List (List Ball))
    (g : List Ball) (x : Ball) (hg : g ∈ gs)
    (hx : ∀ acc, x ∈ expandGroup balls acc g) :
    ∀ acc, x ∈ List.foldl (expandGroup balls) acc gs := by
  induction gs with
  | nil => simp at hg
  | cons g0 gs ih =>
    intro acc
    rcases List.mem_cons.1 hg with rfl | hgs
    · exact mem_foldl_expand_mono balls gs _ x (hx acc)
    · exact ih hgs _

theorem mem_foldl_expand_cases (balls : List Ball) (gs : List (List Ball)) :
    ∀ (acc : List Ball) (x : Ball), x ∈ List.foldl (expandGroup balls) acc gs →
      x ∈ acc ∨ ∃ g ∈ gs, (x ∈ g ∨
        (∃ c, groupMatchColor g = some c ∧ x ∈ balls ∧ x.color = c) ∨
        (groupMatchColor g = none ∧ x ∈ balls ∧ x.color ≠ Color.skull) ∨
        (∃ r ∈ g, r.color = Color.rainbow ∧ x ∈ balls ∧ x.color = Color.skull ∧
          isClose r x = true)) := by
  induction gs with
  | nil => intro acc x h; exact Or.inl (by simpa using h)
  | cons g gs ih =>
    intro acc x h
    rcases ih _ x h with h1 | ⟨g2, hg2, h2⟩
    · rcases mem_expandGroup_cases balls g acc x h1 with h3 | h3 | h3 | h3 | h3
      · exact Or.inl h3
      · exact Or.inr ⟨g, List.mem_cons_self _ _, Or.inl h3⟩
      · exact Or.inr ⟨g, List.mem_cons_self _ _, Or.inr (Or.inl h3)⟩
      · exact Or.inr ⟨g, List.mem_cons_self _ _, Or.inr (Or.inr (Or.inl h3))⟩
      · exact Or.inr ⟨g, List.mem_cons_self _ _, Or.inr (Or.inr (Or.inr h3))⟩
    · exact Or.inr ⟨g2, List.mem_cons_of_mem _ hg2, h2⟩

theorem gmcAux_some (g : List Ball) :
    ∀ (acc : Option Color) (c : Color),
      g.foldl (fun acc b => if b.color = Color.rainbow then acc else some b.color) acc = some c →
      (∃ b ∈ g, b.color = c) ∨ acc = some c := by
  induction g with
  | nil => intro acc c h; exact Or.inr (by simpa using h)
  | cons b g ih =>
    intro acc c h
    simp only [List.foldl_cons] at h
    rcases ih _ c h with ⟨b2, hb2, hc⟩ | hacc
    · exact Or.inl ⟨b2, List.mem_cons_of_mem _ hb2, hc⟩
    · split at hacc
      · exact Or.inr hacc
      · have hbc : b.color = c := by simpa using hacc
        exact Or.inl ⟨b, List.mem_cons_self _ _, hbc⟩

theorem groupMatchColor_eq_some (g : List Ball) (c : Color)
    (h : groupMatchColor g = some c) : ∃ b ∈ g, b.color = c := by
  rcases gmcAux_some g none c h with h1 | h1
  · exact h1
  · simp at h1

theorem groupMatchColor_none_of_rainbow (g : List Ball)
    (h : ∀ b ∈ g, b.color = Color.rainbow) : groupMatchColor g = none := by
  unfold groupMatchColor
  induction g with
  | nil => rfl
  | cons b g ih =>
    simp only [List.foldl_cons]
    rw [if_pos (h b (List.mem_cons_self _ _))]
    exact ih fun b2 hb2 => h b2 (List.mem_cons_of_mem _ hb2)

/-! ## Claims C1, C2, C3, C10 -/

/-- C1 counterexample: on the board `cexBalls` — blue at (0,0), blue at
(42,0), rainbow at (84,0), blue at (300,300) — the isolated blue ball at
(300,300) is adjacent to no other ball, so its connected component under the
adjacency rule has size 1 < 3 and it belongs to no removal group; yet
`checkForMatches` removes it (the rainbow-augmented blue group triggers the
color bomb).  Hence match resolution does not remove exactly the flood-fill
components, and balls of components of size < 3 can be removed. -/
theorem claim1_counterexample :
    cexIsolated ∈ checkForMatches cexBalls ∧
    cexIsolated.color = Color.blue ∧
    (∀ b ∈ cexBalls, b ≠ cexIsolated → isClose cexIsolated b = false) ∧
    (∀ g ∈ (computeGroups cexBalls).1, cexIsolated ∉ g) := by decide

/-- C1 (amended): on a board of at least 3 balls, every removal group
computed by the two-phase flood fill has size ≥ 3 — groups of size < 3 never
arise — and every group is fully contained in the removal set of
`checkForMatches`.  (The removal set may strictly exceed the union of the
groups because of wildcard expansion, which is what the counterexample
exhibits.) -/
theorem claim1_amended_removal (balls : List Ball) (h3 : 3 ≤ balls.length) :
    ∀ g ∈ (computeGroups balls).1, 3 ≤ g.length ∧ ∀ x ∈ g, x ∈ checkForMatches balls := by
  intro g hg
  refine ⟨computeGroups_min3 balls g hg, ?_⟩
  intro x hx
  have he : checkForMatches balls = matchRemovalSet balls := by
    unfold checkForMatches
    rw [if_neg (by omega)]
  rw [he]
  unfold matchRemovalSet
  exact mem_foldl_expand_of balls _ g x hg (fun acc => mem_expandGroup_self balls g acc x hx) []

/-- Witness for C1 (amended): three touching blue balls form a single group
fully contained in the removal set. -/
theorem claim1_witness :
    3 ≤ wBlueBalls.length ∧
    ∀ g ∈ (computeGroups wBlueBalls).1, 3 ≤ g.length ∧
      ∀ x ∈ g, x ∈ checkForMatches wBlueBalls :=
  ⟨by decide, claim1_amended_removal wBlueBalls (by decide)⟩

/-- C2: for every removal group containing a rainbow ball: if the group's
`matchColor` is a standard color, every ball of that color on the board is
removed (color bomb); if the group is pure rainbow (`matchColor` none),
every non-skull ball on the board is removed (full clear); every rainbow
member of the group additionally removes every skull within adjacency
distance; in particular a pure-rainbow group removes every non-skull ball on
the board. -/
theorem claim2_wildcard_expansion (balls : List Ball) (g : List Ball)
    (hg : g ∈ (computeGroups balls).1) (h3 : 3 ≤ balls.length) :
    (∀ c, groupMatchColor g = some c → (∃ r ∈ g, r.color = Color.rainbow) →
      ∀ b ∈ balls, b.color = c → b ∈ checkForMatches balls) ∧
    (groupMatchColor g = none → (∃ r ∈ g, r.color = Color.rainbow) →
      ∀ b ∈ balls, b.color ≠ Color.skull → b ∈ checkForMatches balls) ∧
    (∀ r ∈ g, r.color = Color.rainbow → ∀ s ∈ balls, s.color = Color.skull →
      isClose r s = true → s ∈ checkForMatches balls) ∧
    ((∀ b ∈ g, b.color = Color.rainbow) →
      ∀ b ∈ balls, b.color ≠ Color.skull → b ∈ checkForMatches balls) := by
  have he : checkForMatches balls = matchRemovalSet balls := by
    unfold checkForMatches
    rw [if_neg (by omega)]
  have hfold : ∀ (x : Ball), (∀ acc, x ∈ expandGroup balls acc g) →
      x ∈ checkForMatches balls := by
    intro x hx
    rw [he]
    unfold matchRemovalSet
    exact mem_foldl_expand_of balls _ g x hg hx []
  refine ⟨?_, ?_, ?_, ?_⟩
  · intro c hmc hr b hb hbc
    exact hfold b fun acc => mem_expandGroup_bomb balls g acc b c hr hmc hb hbc
  · intro hmc hr b hb hbc
    exact hfold b fun acc => mem_expandGroup_clear balls g acc b hr hmc hb hbc
  · intro r hrg hrc s hs hsc hcl
    exact hfold s fun acc => mem_expandGroup_skull balls g acc r s hrg hrc hs hsc hcl
  · intro hall b hb hbc
    have hmc : groupMatchColor g = none := groupMatchColor_none_of_rainbow g hall
    have hlen : 3 ≤ g.length := computeGroups_min3 balls g hg
    have hne : g ≠ [] := by
      intro h
      rw [h] at hlen
      simp at hlen
    rcases List.exists_mem_of_ne_nil g hne with ⟨r, hrg⟩
    exact hfold b fun acc =>
      mem_expandGroup_clear balls g acc b ⟨r, hrg, hall r hrg⟩ hmc hb hbc

/-- Witness for C2: on the board with a pure-rainbow triple and an adjacent
skull, the rainbow triple is a removal group and the adjacent skull is
removed. -/
theorem claim2_witness :
    wRainbowGroup ∈ (computeGroups wBalls).1 ∧ wSkull ∈ checkForMatches wBalls :=
  ⟨by decide,
    (claim2_wildcard_expansion wBalls wRainbowGroup (by decide) (by decide)).2.2.1
      wRainbow1 (by decide) (by decide) wSkull (by decide) (by decide) (by decide)⟩

/-- C3: in every single resolution pass the removal groups are pairwise
disjoint — no ball appears in two removal groups, because a ball once
visited during Phase A or Phase B is excluded from further seeding and
absorption. -/
theorem claim3_groups_disjoint (balls : List Ball) :
    DisjointGroups (computeGroups balls).1 :=
  computeGroups_disjoint balls

/-- C10: a skull-colored ball is in the removal set only if it lies within
adjacency distance of a rainbow ball belonging to some removal group: skulls
are never seeds, never absorbed into groups, and excluded from both the
color-bomb and full-clear expansions. -/
theorem claim10_skull_only_adjacent (balls : List Ball) (s : Ball)
    (hs : s ∈ checkForMatches balls) (hcol : s.color = Color.skull) :
    ∃ g ∈ (computeGroups balls).1, ∃ r ∈ g, r.color = Color.rainbow ∧
      isClose r s = true := by
  unfold checkForMatches at hs
  split at hs
  · simp at hs
  · unfold matchRemovalSet at hs
    rcases mem_foldl_expand_cases balls _ _ s hs with h1 | ⟨g, hg, hcase⟩
    · simp at h1
    · rcases hcase with h2 | ⟨c, hmc, _, hc⟩ | ⟨_, _, hne⟩ | ⟨r, hrg, hrc, _, _, hcl⟩
      · exact absurd hcol (computeGroups_no_skull balls g hg s h2)
      · rcases groupMatchColor_eq_some g c hmc with ⟨b, hbg, hbc⟩
        have hbs : b.color ≠ Color.skull := computeGroups_no_skull balls g hg b hbg
        have hcs : c = Color.skull := by rw [← hc]; exact hcol
        rw [hbc, hcs] at hbs
        exact absurd rfl hbs
      · exact absurd hcol hne
      · exact ⟨g, hg, r, hrg, hrc, hcl⟩

/-- Witness for C10: the skull adjacent to the rainbow triple is removed,
and the theorem produces the adjacent rainbow in the removal group. -/
theorem claim10_witness :
    wSkull ∈ checkForMatches wBalls ∧ wSkull.color = Color.skull ∧
    ∃ g ∈ (computeGroups wBalls).1, ∃ r ∈ g, r.color = Color.rainbow ∧
      isClose r wSkull = true :=
  ⟨by decide, by decide, claim10_skull_only_adjacent wBalls wSkull (by decide) (by decide)⟩

/-! ## Claim C4: settle detection -/

/-- C4 counterexample: a frame with no balls is vacuously "every ball is
asleep or below epsilon", yet the `afterUpdate` handler returns early: the
counter neither increments nor resets, and eight consecutive such frames
never fire match resolution (the claim requires a fire at the 8th
consecutive still frame). -/
theorem claim4_counterexample :
    ([] : List BallMotion).all ballStill = true ∧
    settleStep 7 [] = (7, false) ∧
    runSettle 0 (List.replicate 8 ([] : List BallMotion)) = (0, 0) := by decide

/-- C4 (amended): for frames that contain at least one ball, the counter
increments exactly on all-still frames — resetting to 0 with a fire at every
8th consecutive still frame — and resets to 0 on a non-still frame; frames
with no balls leave the counter unchanged and never fire.  Quantitatively:
from a counter `c < 8`, a run of `n` consecutive still non-empty frames
leaves the counter at `(c+n) % 8` and fires `(c+n) / 8` times — so from a
fresh counter the first fire happens exactly at the 8th frame, never
earlier. -/
theorem claim4_amended_settle :
    (∀ (c : Nat) (frames : List (List BallMotion)), c < 8 →
      (∀ f ∈ frames, f ≠ [] ∧ f.all ballStill = true) →
      runSettle c frames = ((c + frames.length) % 8, (c + frames.length) / 8)) ∧
    (∀ (c : Nat) (f : List BallMotion), f ≠ [] → f.all ballStill = false →
      settleStep c f = (0, false)) ∧
    (∀ c : Nat, settleStep c ([] : List BallMotion) = (c, false)) := by
  refine ⟨?_, ?_, ?_⟩
  · intro c frames
    induction frames generalizing c with
    | nil =>
      intro hc _
      simp [runSettle, Nat.mod_eq_of_lt hc, Nat.div_eq_of_lt hc]
    | cons f fs ih =>
      intro hc h
      obtain ⟨hne, hstill⟩ := h f (List.mem_cons_self _ _)
      have hemp : f.isEmpty = false := by
        cases f
        · exact absurd rfl hne
        · rfl
      have htail : ∀ f2 ∈ fs, f2 ≠ [] ∧ f2.all ballStill = true :=
        fun f2 hf2 => h f2 (List.mem_cons_of_mem _ hf2)
      by_cases h8 : 8 ≤ c + 1
      · have hstep : settleStep c f = (0, true) := by
          simp [settleStep, hemp, hstill, REQUIRED_SETTLE_FRAMES, h8]
        have hrec := ih 0 (by omega) htail
        simp only [runSettle, hstep, hrec]
        have hc7 : c = 7 := by omega
        rw [hc7]
        rw [Prod.ext_iff]
        simp only [List.length_cons]
        refine ⟨by omega, ?_⟩
        simp only [if_true]
        omega
      · have hstep : settleStep c f = (c + 1, false) := by
          simp [settleStep, hemp, hstill, REQUIRED_SETTLE_FRAMES, h8]
        have hrec := ih (c + 1) (by omega) htail
        simp only [runSettle, hstep, hrec]
        rw [Prod.ext_iff]
        simp only [List.length_cons]
        refine ⟨by omega, ?_⟩
        have hif : (if false = true then 1 else 0) = 0 := rfl
        rw [hif]
        omega
  · intro c f hne hstill
    have hemp : f.isEmpty = false := by
      cases f
      · exact absurd rfl hne
      · rfl
    simp [settleStep, hemp, hstill]
  · intro c
    simp [settleStep]

/-- Witness for C4 (amended): eight consecutive still one-ball frames from a
fresh counter fire exactly once and leave the counter at 0. -/
theorem claim4_witness :
    runSettle 0 (List.replicate 8 stillFrame) = (0, 1) := by
  have h := claim4_amended_settle.1 0 (List.replicate 8 stillFrame) (by omega) (by decide)
  simpa using h

/-! ## Claim C5: ball-id counter -/

theorem roomInv_preserved (s : RoomCounters) (e : RoomEvent) (h : RoomInv s) :
    RoomInv (applyRoomEvent s e) := by
  rcases h with ⟨hple, hnd⟩
  cases e with
  | dropBall =>
    constructor
    · intro i hi
      rcases List.mem_cons.1 hi with rfl | hi2
      · exact Nat.le_refl _
      · exact Nat.le_succ_of_le (hple i hi2)
    · refine List.nodup_cons.2 ⟨?_, hnd⟩
      intro hmem
      have := hple _ hmem
      omega
  | resetGame =>
    constructor
    · intro i hi
      simp [applyRoomEvent] at hi
    · simp [applyRoomEvent]
  | removeBalls ids =>
    constructor
    · intro i hi
      exact hple i (List.mem_of_mem_filter hi)
    · exact List.Nodup.filter _ hnd

theorem roomInv_fold (evs : List RoomEvent) :
    ∀ s : RoomCounters, RoomInv s → RoomInv (evs.foldl applyRoomEvent s) := by
  induction evs with
  | nil => intro s h; exact h
  | cons e evs ih => intro s h; exact ih _ (roomInv_preserved s e h)

theorem runRoom_inv (evs : List RoomEvent) : RoomInv (runRoom evs) := by
  refine roomInv_fold evs initialRoomCounters ⟨?_, ?_⟩
  · intro i hi
    simp [initialRoomCounters] at hi
  · simp [initialRoomCounters]

/-- C5 counterexample: after a single `dropBall` from a fresh room the
counter equals 1 and the id 1 has been allocated, so the counter does not
strictly exceed every allocated id (pre-increment makes them equal); and
after a subsequent `resetGame` the counter is 0 while the id 1 was allocated
in the room at some point, so the counter does not exceed every id ever
allocated. -/
theorem claim5_counterexample :
    (runRoom [RoomEvent.dropBall]).ballIdCounter = 1 ∧
    1 ∈ (runRoom [RoomEvent.dropBall]).everIds ∧
    ¬ 1 < (runRoom [RoomEvent.dropBall]).ballIdCounter ∧
    (runRoom [RoomEvent.dropBall, RoomEvent.resetGame]).ballIdCounter = 0 ∧
    1 ∈ (runRoom [RoomEvent.dropBall, RoomEvent.resetGame]).everIds := by decide

/-- C5 (amended): in every reachable room state the counter is at least
every live ball id (the most recently allocated id equals the counter, so
"strictly exceeds" fails, and ids allocated before a reset can exceed the
reset counter), live ids are pairwise distinct, and the counter is
monotonically non-decreasing under every event except `resetGame`, which
sets it to 0. -/
theorem claim5_amended_counter :
    (∀ evs : List RoomEvent, RoomInv (runRoom evs)) ∧
    (∀ (s : RoomCounters) (e : RoomEvent), e ≠ RoomEvent.resetGame →
      s.ballIdCounter ≤ (applyRoomEvent s e).ballIdCounter) ∧
    (∀ s : RoomCounters, (applyRoomEvent s RoomEvent.resetGame).ballIdCounter = 0) := by
  refine ⟨runRoom_inv, ?_, ?_⟩
  · intro s e he
    cases e with
    | dropBall => exact Nat.le_succ _
    | resetGame => exact absurd rfl he
    | removeBalls ids => exact Nat.le_refl _
  · intro s
    rfl

/-- Witness for C5 (amended): applied to the one-drop room and a further
drop event. -/
theorem claim5_witness :
    RoomInv (runRoom [RoomEvent.dropBall]) ∧
    (runRoom [RoomEvent.dropBall]).ballIdCounter ≤
      (applyRoomEvent (runRoom [RoomEvent.dropBall]) RoomEvent.dropBall).ballIdCounter :=
  ⟨claim5_amended_counter.1 [RoomEvent.dropBall],
   claim5_amended_counter.2.1 _ RoomEvent.dropBall (by decide)⟩

/-! ## Claim C6: persistence round trip -/

/-- C6: saving a snapshot and immediately loading it under the same room
name returns a snapshot equal to the saved one, and the restore path of
`createRoom` rebuilds each body with the saved velocity, angle and angular
velocity (not just position); serializing the restored bodies reproduces the
saved balls on every observable field (id, position, color, kinematics). -/
theorem claim6_save_load_roundtrip (store : List (String × RoomSnapshot))
    (roomName : String) (snap : RoomSnapshot) :
    loadRoomState (saveRoomState store roomName snap) roomName = some snap ∧
    (∀ bd ∈ snap.balls,
      (restoreBody bd).velocityX = bd.velocityX ∧
      (restoreBody bd).velocityY = bd.velocityY ∧
      (restoreBody bd).angle = bd.angle ∧
      (restoreBody bd).angularVelocity = bd.angularVelocity ∧
      (restoreBody bd).x = bd.x ∧ (restoreBody bd).y = bd.y ∧
      (restoreBody bd).ballId = bd.id ∧ (restoreBody bd).color = bd.color) ∧
    (snap.balls.map (fun bd => ballObservables (serializeBody (restoreBody bd))) =
      snap.balls.map ballObservables) := by
  refine ⟨?_, ?_, ?_⟩
  · unfold loadRoomState saveRoomState
    rw [List.find?_cons_of_pos]
    · rfl
    · simp
  · intro bd _
    exact ⟨rfl, rfl, rfl, rfl, rfl, rfl, rfl, rfl⟩
  · rfl

/-- Witness for C6: the round trip on a concrete one-ball snapshot. -/
theorem claim6_witness :
    loadRoomState (saveRoomState [] "room-a" demoSnapshot) "room-a" = some demoSnapshot ∧
    (restoreBody demoBall).velocityY = demoBall.velocityY :=
  ⟨(claim6_save_load_roundtrip [] "room-a" demoSnapshot).1,
   ((claim6_save_load_roundtrip [] "room-a" demoSnapshot).2.1 demoBall
     (List.mem_cons_self _ _)).2.1⟩

/-! ## Claim C8: at most one active assignment per user -/

theorem countActive_refreshFirst (u room name : String) :
    ∀ rows : List AssignmentRow,
      countActive u (refreshFirst u room name rows) = countActive u rows := by
  intro rows
  unfold countActive
  induction rows with
  | nil => rfl
  | cons r rs ih =>
    rw [refreshFirst]
    split
    · rename_i hc
      obtain ⟨h1, _, h3⟩ := hc
      simp [List.filter_cons, h1, h3]
    · by_cases hu : r.userId = u <;> by_cases ha : r.isActive <;>
        simp [List.filter_cons, hu, ha, ih]

theorem countActive_pos_of_any (u room : String) (rows : List AssignmentRow)
    (h : (rows.any fun r =>
        decide (r.userId = u) && decide (r.roomName = room) && r.isActive) = true) :
    1 ≤ countActive u rows := by
  rcases List.any_eq_true.1 h with ⟨r, hr, hp⟩
  simp only [Bool.and_eq_true, decide_eq_true_eq] at hp
  have hmem : r ∈ rows.filter fun r => decide (r.userId = u) && r.isActive :=
    List.mem_filter.2 ⟨hr, by simp [hp.1.1, hp.2]⟩
  have hpos := List.length_pos_of_mem hmem
  unfold countActive
  omega

theorem countActive_deactivated (u : String) (rows : List AssignmentRow) :
    countActive u
      (rows.map fun r => if r.userId = u then { r with isActive := false } else r) = 0 := by
  unfold countActive
  induction rows with
  | nil => rfl
  | cons r rs ih =>
    by_cases hu : r.userId = u <;> simp [List.filter_cons, hu, ih]

theorem countActive_append (u : String) (l1 l2 : List AssignmentRow) :
    countActive u (l1 ++ l2) = countActive u l1 + countActive u l2 := by
  unfold countActive
  simp [List.filter_append]

theorem assign_countActive (u room name : String) (rows : List AssignmentRow)
    (h : countActive u rows ≤ 1) :
    countActive u (assignUserToRoom u room name rows) = 1 := by
  unfold assignUserToRoom
  split
  · rename_i hany
    rw [countActive_refreshFirst]
    have := countActive_pos_of_any u room rows hany
    omega
  · rw [countActive_append, countActive_deactivated]
    simp [countActive]

theorem refreshFirst_keys (u room name : String) :
    ∀ rows : List AssignmentRow,
      (refreshFirst u room name rows).map (fun r => (r.userId, r.roomName, r.isActive)) =
        rows.map fun r => (r.userId, r.roomName, r.isActive) := by
  intro rows
  induction rows with
  | nil => rfl
  | cons r rs ih =>
    rw [refreshFirst]
    split
    · rfl
    · simp only [List.map_cons]
      rw [ih]

/-- C8: `assignUserToRoom` preserves "at most one active assignment row per
user": from a state with at most one active row for `u` it always reaches a
state with exactly one active row for `u`; and when the user is already
active in the target room, the operation is a pure refresh — it changes no
row's user, room, or active flag. -/
theorem claim8_one_active_per_user (u room name : String) (rows : List AssignmentRow)
    (h : countActive u rows ≤ 1) :
    countActive u (assignUserToRoom u room name rows) = 1 ∧
    ((rows.any fun r =>
        decide (r.userId = u) && decide (r.roomName = room) && r.isActive) = true →
      (assignUserToRoom u room name rows).map (fun r => (r.userId, r.roomName, r.isActive)) =
        rows.map fun r => (r.userId, r.roomName, r.isActive)) := by
  refine ⟨assign_countActive u room name rows h, ?_⟩
  intro hany
  unfold assignUserToRoom
  rw [if_pos hany]
  exact refreshFirst_keys u room name rows

/-- Witness for C8: moving the single active user to another room leaves
exactly one active row. -/
theorem claim8_witness :
    countActive "u1" [demoRow] ≤ 1 ∧
    countActive "u1" (assignUserToRoom "u1" "room-b" "alice" [demoRow]) = 1 :=
  ⟨by decide, (claim8_one_active_per_user "u1" "room-b" "alice" [demoRow] (by decide)).1⟩

/-! ## Claim C7: per-user coalescing of findOrCreateRoomForUser -/

theorem coalesce_arrivals_pending (u name : String) (cs : List Nat) :
    ∀ s : CoalesceState, s.hasPending = true →
      List.foldl (coalesceStep u name) s (cs.map CoalesceEvent.arrive) =
        { s with waiting := s.waiting ++ cs } := by
  induction cs with
  | nil =>
    intro s h
    simp
  | cons c cs ih =>
    intro s h
    simp only [List.map_cons, List.foldl_cons]
    have hstep : coalesceStep u name s (CoalesceEvent.arrive c) =
        { s with waiting := s.waiting ++ [c] } := by
      simp only [coalesceStep]
      rw [if_pos h]
    rw [hstep, ih { s with waiting := s.waiting ++ [c] } h]
    simp

/-- C7: any trace in which N ≥ 1 calls for the same user arrive while the
first call's op is in flight, followed by the op's completion, starts
exactly one underlying operation; every caller observes that single op's
room name, and exactly one active assignment row results. -/
theorem claim7_coalescing (u name room : String) (cids : List Nat) (h : cids ≠ []) :
    (coalesceRun u name (concurrentTrace room cids)).opsStarted = 1 ∧
    (∀ p ∈ (coalesceRun u name (concurrentTrace room cids)).results,
      p.2.1 = 1 ∧ p.2.2 = room) ∧
    (∀ c ∈ cids, (c, 1, room) ∈ (coalesceRun u name (concurrentTrace room cids)).results) ∧
    countActive u (coalesceRun u name (concurrentTrace room cids)).rows = 1 ∧
    (coalesceRun u name (concurrentTrace room cids)).hasPending = false := by
  cases cids with
  | nil => exact absurd rfl h
  | cons c0 cs =>
    have hrun : coalesceRun u name (concurrentTrace room (c0 :: cs)) =
        ⟨false, 1, [], (c0 :: cs).map (fun c => (c, 1, room)),
          assignUserToRoom u room name []⟩ := by
      unfold coalesceRun concurrentTrace
      rw [List.foldl_append]
      have h1 : List.foldl (coalesceStep u name) initCoalesce
          (List.map CoalesceEvent.arrive (c0 :: cs)) = ⟨true, 1, c0 :: cs, [], []⟩ := by
        simp only [List.map_cons, List.foldl_cons]
        have hstep : coalesceStep u name initCoalesce (CoalesceEvent.arrive c0) =
            ⟨true, 1, [c0], [], []⟩ := by
          simp [coalesceStep, initCoalesce]
        rw [hstep, coalesce_arrivals_pending u name cs ⟨true, 1, [c0], [], []⟩ rfl]
        simp
      rw [h1]
      simp [coalesceStep]
    refine ⟨by rw [hrun], ?_, ?_, ?_, by rw [hrun]⟩
    · rw [hrun]
      intro p hp
      rcases List.mem_map.1 hp with ⟨c, _, hcp⟩
      rw [← hcp]
      exact ⟨rfl, rfl⟩
    · rw [hrun]
      intro c hc
      exact List.mem_map_of_mem _ hc
    · rw [hrun]
      exact assign_countActive u room name [] (by simp [countActive])

/-- Witness for C7: two concurrent callers for user u1 observe one op and
one active row results. -/
theorem claim7_witness :
    (coalesceRun "u1" "n" (concurrentTrace "r" [1, 2])).opsStarted = 1 ∧
    countActive "u1" (coalesceRun "u1" "n" (concurrentTrace "r" [1, 2])).rows = 1 :=
  ⟨(claim7_coalescing "u1" "n" "r" [1, 2] (by decide)).1,
   (claim7_coalescing "u1" "n" "r" [1, 2] (by decide)).2.2.2.1⟩

/-! ## Claim C9: matchmaking failure policy -/

/-- C9 counterexample: with a store where only the `assignUserToRoom` insert
fails (its failure is swallowed inside that function), a durable-store error
does occur during assignment, yet `findOrCreateRoomForUser` returns the
normally selected room, not the locally generated fallback name. -/
theorem claim9_counterexample :
    cexDb.assignAvail = Except.error DbErr.err ∧
    findOrCreateRoomForUser (some cexDb) (fun _ => true) "room-9" "fallback-room-9" "room-9l"
      = "roomA" ∧
    ("roomA" : String) ≠ "fallback-room-9" :=
  ⟨rfl, rfl, by decide⟩

/-- C9 (amended): `findOrCreateRoomForUser` always returns a room name and
never propagates an error: with no durable store it returns the locally
generated name; any durable-store error in the operations it awaits
directly (assignment lookup, refresh, room scan, room insert) makes it
return the locally generated fallback name; errors inside
`assignUserToRoom` are swallowed there, so the normally selected room name
is returned in that case (not the fallback). -/
theorem claim9_amended_fallback :
    (∀ (hasSpace : String → Bool) (newName fallbackName localName : String),
      findOrCreateRoomForUser none hasSpace newName fallbackName localName = localName) ∧
    (∀ (o : MatchmakingDb) (hasSpace : String → Bool) (newName fallbackName localName : String),
      (∃ r, runAssignmentOp o hasSpace newName = Except.ok r ∧
        findOrCreateRoomForUser (some o) hasSpace newName fallbackName localName = r) ∨
      (runAssignmentOp o hasSpace newName = Except.error DbErr.err ∧
        findOrCreateRoomForUser (some o) hasSpace newName fallbackName localName =
          fallbackName)) := by
  constructor
  · intro hs nn fb ln
    rfl
  · intro o hs nn fb ln
    cases hrun : runAssignmentOp o hs nn with
    | ok r =>
      left
      refine ⟨r, rfl, ?_⟩
      simp only [findOrCreateRoomForUser]
      rw [hrun]
    | error e =>
      right
      cases e
      refine ⟨rfl, ?_⟩
      simp only [findOrCreateRoomForUser]
      rw [hrun]

end OrbitalMatch
